import Mathlib

/-
Verification of the TOPSIS decision-ranking engine of this repository
(src/app.py): the numeric pipeline `normalize_matrix`,
`calculate_weighted_matrix`, `find_ideal_solutions`, `calculate_distances`,
`calculate_preference_values`, the driver `perform_topsis_calculation`
(src/app.py lines 93-157), and the ranking assembly in the `calculate_topsis`
route (src/app.py lines 429-432).

Modelling choices (shallow embedding):
- numpy double values are modelled as `Option ℝ` (named `FVal`): `some r` is a
  finite value, `none` is an IEEE NaN.  NaN is produced by the 0/0 division in
  `normalize_matrix` when a column is all-zero and by the 0/0 division in
  `calculate_preference_values`, and it propagates through `+`, `*`, `-`,
  squaring, `sqrt`, `sum`, `max` and `min` exactly as numpy propagates NaN.
  Infinities never arise in this pipeline (every division has a nonnegative
  denominator that is zero only when the numerator is also zero), so `none`
  only ever stands for NaN.
- numpy arrays of fixed shape are modelled as index functions `ℕ → ℕ → FVal`
  together with the explicit row/column counts.
- `np.array` conversion, broadcasting of the `normalized_matrix * weights`
  product, and the Python exceptions (ValueError from numpy shape errors,
  IndexError from `criteria_types[j]`) are modelled in `perform`, which
  returns `Except PyErr TopsisResult` mirroring `perform_topsis_calculation`.
- Python `sorted(..., key=lambda x: x[1], reverse=True)` is a stable
  descending sort; it is modelled by `List.insertionSort` with the
  non-strict relation "score of the left element is at least the score of
  the right element", which inserts every element after the equal-score
  elements that preceded it in the input, exactly the stable behaviour.
-/

noncomputable section

namespace DSSTopsis

/-- Value of a numpy double in this pipeline: `some r` a finite real, `none`
an IEEE NaN (infinities do not arise, see the header comment). -/
abbrev FVal := Option ℝ

/-- NaN-propagating addition. -/
def addV : FVal → FVal → FVal := Option.map₂ (fun a b => a + b)

/-- NaN-propagating multiplication. -/
def mulV : FVal → FVal → FVal := Option.map₂ (fun a b => a * b)

/-- NaN-propagating subtraction. -/
def subV : FVal → FVal → FVal := Option.map₂ (fun a b => a - b)

/-- NaN-propagating squaring, models `x**2`. -/
def sqV (x : FVal) : FVal := x.map (fun a => a ^ 2)

/-- Models `np.sqrt`: NaN on NaN or negative input (negative inputs never
occur in this pipeline, every radicand is a sum of squares). -/
def sqrtV (x : FVal) : FVal :=
  x.bind (fun a => if a < 0 then none else some (Real.sqrt a))

/-- Models numpy division as used in this pipeline.  A zero denominator yields
a non-finite value; in this pipeline the numerator is then also zero (the
normalizer divides a column entry by the column's Euclidean norm, which
vanishes only when the whole column does; the preference scorer divides a
distance by a sum of two nonnegative distances), so the result is 0/0 = NaN,
modelled `none`. -/
def divV : FVal → FVal → FVal := fun x y =>
  x.bind (fun a => y.bind (fun b => if b = 0 then none else some (a / b)))

/-- Models `np.sum` over a list of values: NaN absorbing. -/
def sumFV (l : List FVal) : FVal := l.foldr addV (some 0)

/-- Models `ndarray.max()` over a nonempty axis: NaN propagates.  Defined as
a fold of the pairwise NaN-propagating maximum. -/
def maxFV : List FVal → FVal
  | [] => none
  | x :: xs => xs.foldl (Option.map₂ max) x

/-- Models `ndarray.min()` over a nonempty axis: NaN propagates. -/
def minFV : List FVal → FVal
  | [] => none
  | x :: xs => xs.foldl (Option.map₂ min) x

/-- Models `np.nan_to_num(v, nan=0.0)` on one value: NaN becomes 0.  (The
default replacement of infinities does not matter: infinities never arise.) -/
def nanToNum (x : FVal) : ℝ := x.getD 0

/-- Column sum of squares `np.sum(matrix**2, axis=0)` for column `j` of an
`m`-row matrix of finite inputs. -/
def colSq (M : ℕ → ℕ → ℝ) (m j : ℕ) : ℝ := ∑ i ∈ Finset.range m, (M i j) ^ 2

/-- Embedding of `normalize_matrix` (src/app.py lines 93-96):
`matrix / np.sqrt(np.sum(matrix**2, axis=0))`.  When the column norm is zero
every entry of the column is zero, so the numpy division is 0/0 = NaN,
modelled `none`. -/
def normalize (M : ℕ → ℕ → ℝ) (m : ℕ) : ℕ → ℕ → FVal := fun i j =>
  if Real.sqrt (colSq M m j) = 0 then none
  else some (M i j / Real.sqrt (colSq M m j))

/-- Column `j` of an `m`-row matrix of pipeline values, as the list the numpy
reductions traverse. -/
def colList (W : ℕ → ℕ → FVal) (m j : ℕ) : List FVal :=
  (List.range m).map (fun i => W i j)

/-- `weighted_matrix[:, j].max()` used by `find_ideal_solutions`. -/
def maxCol (W : ℕ → ℕ → FVal) (m j : ℕ) : FVal := maxFV (colList W m j)

/-- `weighted_matrix[:, j].min()` used by `find_ideal_solutions`. -/
def minCol (W : ℕ → ℕ → FVal) (m j : ℕ) : FVal := minFV (colList W m j)

/-- Embedding of the `A_plus` component of `find_ideal_solutions`
(src/app.py lines 102-115): column max for `criteria_types[j] == 'benefit'`,
column min otherwise (any other string is treated as cost by the code). -/
def idealPlus (W : ℕ → ℕ → FVal) (m : ℕ) (tv : ℕ → String) : ℕ → FVal :=
  fun j => if tv j = "benefit" then maxCol W m j else minCol W m j

/-- Embedding of the `A_minus` component of `find_ideal_solutions`. -/
def idealMinus (W : ℕ → ℕ → FVal) (m : ℕ) (tv : ℕ → String) : ℕ → FVal :=
  fun j => if tv j = "benefit" then minCol W m j else maxCol W m j

/-- Embedding of one row of `calculate_distances` (src/app.py lines 117-121):
`np.sqrt(np.sum((weighted_matrix - A)**2, axis=1))` at row `i`, where the row
has `width` columns. -/
def distRow (W : ℕ → ℕ → FVal) (A : ℕ → FVal) (width i : ℕ) : FVal :=
  sqrtV (sumFV ((List.range width).map (fun j => sqV (subV (W i j) (A j)))))

/-- Embedding of one entry of `calculate_preference_values`
(src/app.py lines 123-126): `np.nan_to_num(D_minus / (D_plus + D_minus),
nan=0.0)`. -/
def prefVal (dp dm : FVal) : ℝ := nanToNum (divV dm (addV dp dm))

/-- The decision matrix assembled by the `calculate_topsis` route as an index
function: entry `(i, j)` of `alternatives_data`, out-of-range entries 0. -/
def matFun (data : List (List ℝ)) : ℕ → ℕ → ℝ := fun i j =>
  (data.getD i []).getD j 0

/-- Number of criteria: the length of the first row of the matrix. -/
abbrev nCrit (data : List (List ℝ)) : ℕ := (data.headD []).length

/-- Width of the result of broadcasting an `(m, n)` array against a length
`k` 1-D array, in the compatible cases (`n = k`, `n = 1` or `k = 1`). -/
def bWidth (n k : ℕ) : ℕ := if n = 1 then k else n

/-- The weighted matrix `normalized_matrix * weights` including numpy
broadcasting: a width-1 operand is replicated across the other operand's
columns. -/
def bWeighted (M : ℕ → ℕ → ℝ) (m n k : ℕ) (wv : ℕ → ℝ) : ℕ → ℕ → FVal :=
  fun i j =>
    mulV (normalize M m i (if n = 1 then 0 else j))
      (some (wv (if k = 1 then 0 else j)))

/-- Python exceptions that can escape the engine: numpy shape errors
(`ValueError`) and list index errors (`IndexError`). -/
inductive PyErr where
  | valueError : PyErr
  | indexError : PyErr
deriving DecidableEq

/-- The artifact bundle built by `perform_topsis_calculation`
(src/app.py lines 149-157). -/
structure TopsisResult where
  m : ℕ
  width : ℕ
  normalized : ℕ → ℕ → FVal
  weighted : ℕ → ℕ → FVal
  Aplus : ℕ → FVal
  Aminus : ℕ → FVal
  Dplus : ℕ → FVal
  Dminus : ℕ → FVal
  pref : ℕ → ℝ

/-- The five-stage pipeline of `perform_topsis_calculation` after the shape
checks have succeeded, with `m` rows, `n` original columns, `k` weights. -/
def mkResult (M : ℕ → ℕ → ℝ) (m n k : ℕ) (wv : ℕ → ℝ) (tv : ℕ → String) :
    TopsisResult where
  m := m
  width := bWidth n k
  normalized := normalize M m
  weighted := bWeighted M m n k wv
  Aplus := idealPlus (bWeighted M m n k wv) m tv
  Aminus := idealMinus (bWeighted M m n k wv) m tv
  Dplus := fun i =>
    distRow (bWeighted M m n k wv) (idealPlus (bWeighted M m n k wv) m tv)
      (bWidth n k) i
  Dminus := fun i =>
    distRow (bWeighted M m n k wv) (idealMinus (bWeighted M m n k wv) m tv)
      (bWidth n k) i
  pref := fun i =>
    prefVal
      (distRow (bWeighted M m n k wv) (idealPlus (bWeighted M m n k wv) m tv)
        (bWidth n k) i)
      (distRow (bWeighted M m n k wv) (idealMinus (bWeighted M m n k wv) m tv)
        (bWidth n k) i)

/-- Embedding of `perform_topsis_calculation` (src/app.py lines 128-157)
including the places where the numpy code raises:
- an empty `alternatives_data` gives a 1-D empty `np.array`; multiplying it
  with a weight vector of length at least 2 is a broadcast `ValueError`,
  otherwise `weighted_matrix.shape[1]` in `find_ideal_solutions` is an
  `IndexError`;
- ragged rows make `np.array` raise `ValueError`;
- the product `normalized_matrix * weights` raises `ValueError` unless the
  shapes `(m, n)` and `(k,)` broadcast: `n = k`, `n = 1` or `k = 1`;
- `criteria_types[j]` raises `IndexError` when the broadcast width exceeds
  the length of `criteria_types`. -/
def perform (data : List (List ℝ)) (w : List ℝ) (t : List String) :
    Except PyErr TopsisResult :=
  match data with
  | [] => if 2 ≤ w.length then .error .valueError else .error .indexError
  | r0 :: rest =>
    if ∀ r ∈ rest, r.length = r0.length then
      if r0.length = w.length ∨ r0.length = 1 ∨ w.length = 1 then
        if bWidth r0.length w.length ≤ t.length then
          .ok (mkResult (matFun (r0 :: rest)) (r0 :: rest).length r0.length
            w.length (fun j => w.getD j 0) (fun j => t.getD j ""))
        else .error .indexError
      else .error .valueError
    else .error .valueError

/-- The validity condition the specification imposes on engine inputs:
at least one alternative and one criterion, rectangular matrix, one weight
and one criterion type per criterion, every type in {benefit, cost}. -/
abbrev Valid (data : List (List ℝ)) (w : List ℝ) (t : List String) : Prop :=
  1 ≤ data.length ∧ 1 ≤ nCrit data ∧ (∀ r ∈ data, r.length = nCrit data) ∧
    w.length = nCrit data ∧ t.length = nCrit data ∧
    ∀ s ∈ t, s = "benefit" ∨ s = "cost"

/-- The preference scores of a computed result, as the list
`results['preference_values']`. -/
def prefList (res : TopsisResult) : List ℝ := (List.range res.m).map res.pref

/-- The comparison Python's stable `sorted(..., key=lambda x: x[1],
reverse=True)` effectively inserts with: left element wins when its score is
at least the right element's score. -/
def scoreGE (x y : ℕ × ℝ) : Prop := y.2 ≤ x.2

instance : DecidableRel scoreGE := fun x y => Real.decidableLE y.2 x.2

instance : IsTotal (ℕ × ℝ) scoreGE := ⟨fun x y => le_total y.2 x.2⟩

instance : IsTrans (ℕ × ℝ) scoreGE :=
  ⟨fun _ _ _ h1 h2 => le_trans h2 h1⟩

/-- Embedding of the ranking in the `calculate_topsis` route (src/app.py
line 431): `sorted(enumerate(preference_values), key=lambda x: x[1],
reverse=True)`, a stable descending sort of (original index, score) pairs. -/
def rankingOf (prefs : List ℝ) : List (ℕ × ℝ) :=
  List.insertionSort scoreGE prefs.enum

/-- Embedding of src/app.py line 432: rank `i + 1` is attached to the entry
at position `i` of the sorted list, giving (rank, original index, score)
triples. -/
def rankedTriples (prefs : List ℝ) : List (ℕ × ℕ × ℝ) :=
  (rankingOf prefs).enum.map (fun q => (q.1 + 1, q.2))

/-- Strict descending-then-by-index order: what "sorted by score descending
with ties broken by ascending original index" means for adjacent entries. -/
def rankLex (x y : ℕ × ℝ) : Prop := y.2 < x.2 ∨ (x.2 = y.2 ∧ x.1 < y.1)

/-! ### Basic facts about the NaN-propagating value operations -/

lemma addV_some_some (a b : ℝ) : addV (some a) (some b) = some (a + b) := rfl

lemma addV_none_left (x : FVal) : addV none x = none := rfl

lemma addV_none_right (x : FVal) : addV x none = none := by cases x <;> rfl

lemma mulV_none_left (x : FVal) : mulV none x = none := rfl

lemma subV_none_left (x : FVal) : subV none x = none := rfl

lemma sqV_none : sqV none = none := rfl

lemma sqrtV_none : sqrtV none = none := rfl

lemma divV_none_right (x : FVal) : divV x none = none := by cases x <;> rfl

lemma divV_none_left (x : FVal) : divV none x = none := rfl

lemma prefVal_none_left (y : FVal) : prefVal none y = 0 := by
  cases y <;> rfl

lemma prefVal_none_right (x : FVal) : prefVal x none = 0 := by
  simp [prefVal, addV_none_right, divV_none_right, nanToNum]

lemma divV_some_some (a b : ℝ) :
    divV (some a) (some b) = if b = 0 then none else some (a / b) := rfl

lemma prefVal_some_some (dp dm : ℝ) :
    prefVal (some dp) (some dm) =
      if dp + dm = 0 then 0 else dm / (dp + dm) := by
  rw [prefVal, addV_some_some, divV_some_some]
  by_cases h : dp + dm = 0
  · simp [h, nanToNum]
  · simp [h, nanToNum]

lemma sumFV_map_some (l : List ℝ) : sumFV (l.map some) = some l.sum := by
  induction l with
  | nil => rfl
  | cons a as ih =>
    simp only [List.map_cons, sumFV, List.foldr_cons] at ih ⊢
    rw [ih, addV_some_some, List.sum_cons]

lemma sumFV_eq_none (l : List FVal) (h : none ∈ l) : sumFV l = none := by
  induction l with
  | nil => simp at h
  | cons a as ih =>
    rcases List.mem_cons.mp h with ha | ha
    · rw [sumFV, List.foldr_cons, ← ha]
      exact addV_none_left _
    · rw [sumFV, List.foldr_cons]
      have : sumFV as = none := ih ha
      rw [sumFV] at this
      rw [this]
      exact addV_none_right _

lemma foldl_map2_some (f : ℝ → ℝ → ℝ) (l : List ℝ) (a : ℝ) :
    (l.map some).foldl (Option.map₂ f) (some a) = some (l.foldl f a) := by
  induction l generalizing a with
  | nil => rfl
  | cons x xs ih =>
    simp only [List.map_cons, List.foldl_cons]
    rw [show Option.map₂ f (some a) (some x) = some (f a x) from rfl, ih]

lemma foldl_map2_none (f : ℝ → ℝ → ℝ) (l : List FVal) :
    l.foldl (Option.map₂ f) none = none := by
  induction l with
  | nil => rfl
  | cons x xs ih => simpa using ih

lemma maxFV_cons_none (l : List FVal) : maxFV (none :: l) = none := by
  rw [maxFV]
  exact foldl_map2_none _ _

lemma minFV_cons_none (l : List FVal) : minFV (none :: l) = none := by
  rw [minFV]
  exact foldl_map2_none _ _

lemma foldl_max_spec (b : ℝ) (bs : List ℝ) :
    bs.foldl max b ∈ b :: bs ∧ ∀ x ∈ b :: bs, x ≤ bs.foldl max b := by
  induction bs generalizing b with
  | nil => exact ⟨List.mem_singleton.mpr rfl, by simp⟩
  | cons c cs ih =>
    obtain ⟨hmem, hub⟩ := ih (max b c)
    constructor
    · simp only [List.foldl_cons]
      rcases List.mem_cons.mp hmem with h | h
      · rcases max_choice b c with hb | hc
        · rw [h, hb]; exact List.mem_cons_self _ _
        · rw [h, hc]
          exact List.mem_cons_of_mem _ (List.mem_cons_self _ _)
      · exact List.mem_cons_of_mem _ (List.mem_cons_of_mem _ h)
    · intro x hx
      simp only [List.foldl_cons]
      have hmax : max b c ≤ cs.foldl max (max b c) :=
        hub _ (List.mem_cons_self _ _)
      rcases List.mem_cons.mp hx with h | h
      · rw [h]; exact le_trans (le_max_left b c) hmax
      · rcases List.mem_cons.mp h with h2 | h2
        · rw [h2]; exact le_trans (le_max_right b c) hmax
        · exact hub _ (List.mem_cons_of_mem _ h2)

lemma foldl_min_spec (b : ℝ) (bs : List ℝ) :
    bs.foldl min b ∈ b :: bs ∧ ∀ x ∈ b :: bs, bs.foldl min b ≤ x := by
  induction bs generalizing b with
  | nil => exact ⟨List.mem_singleton.mpr rfl, by simp⟩
  | cons c cs ih =>
    obtain ⟨hmem, hlb⟩ := ih (min b c)
    constructor
    · simp only [List.foldl_cons]
      rcases List.mem_cons.mp hmem with h | h
      · rcases min_choice b c with hb | hc
        · rw [h, hb]; exact List.mem_cons_self _ _
        · rw [h, hc]
          exact List.mem_cons_of_mem _ (List.mem_cons_self _ _)
      · exact List.mem_cons_of_mem _ (List.mem_cons_of_mem _ h)
    · intro x hx
      simp only [List.foldl_cons]
      have hmin : cs.foldl min (min b c) ≤ min b c :=
        hlb _ (List.mem_cons_self _ _)
      rcases List.mem_cons.mp hx with h | h
      · rw [h]; exact le_trans hmin (min_le_left b c)
      · rcases List.mem_cons.mp h with h2 | h2
        · rw [h2]; exact le_trans hmin (min_le_right b c)
        · exact hlb _ (List.mem_cons_of_mem _ h2)

lemma maxFV_spec (l : List ℝ) (hl : l ≠ []) :
    ∃ a, maxFV (l.map some) = some a ∧ a ∈ l ∧ ∀ x ∈ l, x ≤ a := by
  match l with
  | [] => exact absurd rfl hl
  | b :: bs =>
    refine ⟨bs.foldl max b, ?_, (foldl_max_spec b bs).1,
      (foldl_max_spec b bs).2⟩
    rw [List.map_cons, maxFV]
    exact foldl_map2_some max bs b

lemma minFV_spec (l : List ℝ) (hl : l ≠ []) :
    ∃ a, minFV (l.map some) = some a ∧ a ∈ l ∧ ∀ x ∈ l, a ≤ x := by
  match l with
  | [] => exact absurd rfl hl
  | b :: bs =>
    refine ⟨bs.foldl min b, ?_, (foldl_min_spec b bs).1,
      (foldl_min_spec b bs).2⟩
    rw [List.map_cons, minFV]
    exact foldl_map2_some min bs b

/-! ### The normalizer -/

lemma colSq_nonneg (M : ℕ → ℕ → ℝ) (m j : ℕ) : 0 ≤ colSq M m j :=
  Finset.sum_nonneg (fun i _ => sq_nonneg (M i j))

lemma colSq_pos (M : ℕ → ℕ → ℝ) (m j : ℕ)
    (h : ∃ i < m, M i j ≠ 0) : 0 < colSq M m j := by
  obtain ⟨i, hi, hne⟩ := h
  exact Finset.sum_pos' (fun r _ => sq_nonneg (M r j))
    ⟨i, Finset.mem_range.mpr hi, by positivity⟩

lemma colSq_eq_zero (M : ℕ → ℕ → ℝ) (m j : ℕ)
    (h : ∀ i < m, M i j = 0) : colSq M m j = 0 :=
  Finset.sum_eq_zero (fun i hi => by
    rw [h i (Finset.mem_range.mp hi)]; ring)

lemma normalize_of_pos (M : ℕ → ℕ → ℝ) (m j : ℕ)
    (h : 0 < colSq M m j) (i : ℕ) :
    normalize M m i j = some (M i j / Real.sqrt (colSq M m j)) := by
  rw [normalize, if_neg]
  exact ne_of_gt (Real.sqrt_pos.mpr h)

lemma normalize_zeroCol (M : ℕ → ℕ → ℝ) (m j : ℕ)
    (h : ∀ i < m, M i j = 0) (i : ℕ) : normalize M m i j = none := by
  rw [normalize, if_pos]
  rw [colSq_eq_zero M m j h, Real.sqrt_zero]

/-! ### Unfolding the pipeline on shape-valid inputs -/

lemma bWidth_self (n : ℕ) : bWidth n n = n := by
  rw [bWidth]
  split <;> simp_all

lemma perform_valid (data : List (List ℝ)) (w : List ℝ) (t : List String)
    (h : Valid data w t) :
    perform data w t =
      .ok (mkResult (matFun data) data.length (nCrit data) (nCrit data)
        (fun j => w.getD j 0) (fun j => t.getD j "")) := by
  obtain ⟨hm, hn, hrect, hw, ht, htypes⟩ := h
  match data with
  | [] => simp at hm
  | r0 :: rest =>
    have hn0 : nCrit (r0 :: rest) = r0.length := rfl
    have h1 : ∀ r ∈ rest, r.length = r0.length := fun r hr =>
      (hrect r (List.mem_cons_of_mem _ hr)).trans hn0
    have h2 : r0.length = w.length ∨ r0.length = 1 ∨ w.length = 1 :=
      Or.inl (hw.trans hn0).symm
    have h3 : bWidth r0.length w.length ≤ t.length := by
      rw [hw.trans hn0, bWidth_self, ht, hn0]
    rw [perform, if_pos h1, if_pos h2, if_pos h3, hn0, hw.trans hn0]

lemma mkResult_pref (M : ℕ → ℕ → ℝ) (m n k : ℕ) (wv : ℕ → ℝ)
    (tv : ℕ → String) (i : ℕ) :
    (mkResult M m n k wv tv).pref i =
      prefVal ((mkResult M m n k wv tv).Dplus i)
        ((mkResult M m n k wv tv).Dminus i) := rfl

lemma bWeighted_eq (M : ℕ → ℕ → ℝ) (m n : ℕ) (wv : ℕ → ℝ) (i j : ℕ)
    (hj : j < n) :
    bWeighted M m n n wv i j = mulV (normalize M m i j) (some (wv j)) := by
  rw [bWeighted]
  by_cases h1 : n = 1
  · have : j = 0 := by omega
    simp [h1, this]
  · simp [h1]

/-! ### NaN propagation from an all-zero column -/

lemma bWeighted_zeroCol (M : ℕ → ℕ → ℝ) (m n : ℕ) (wv : ℕ → ℝ) (j : ℕ)
    (hj : j < n) (hz : ∀ i < m, M i j = 0) (i : ℕ) :
    bWeighted M m n n wv i j = none := by
  rw [bWeighted_eq M m n wv i j hj, normalize_zeroCol M m j hz]
  exact mulV_none_left _

lemma colList_zeroCol_head (W : ℕ → ℕ → FVal) (m j : ℕ) (hm : 1 ≤ m)
    (hz : ∀ i, W i j = none) :
    ∃ l, colList W m j = none :: l := by
  obtain ⟨m0, rfl⟩ : ∃ m0, m = m0 + 1 := ⟨m - 1, by omega⟩
  rw [colList, List.range_succ_eq_map, List.map_cons, hz 0]
  exact ⟨_, rfl⟩

lemma maxCol_zeroCol (W : ℕ → ℕ → FVal) (m j : ℕ) (hm : 1 ≤ m)
    (hz : ∀ i, W i j = none) : maxCol W m j = none := by
  obtain ⟨l, hl⟩ := colList_zeroCol_head W m j hm hz
  rw [maxCol, hl]
  exact maxFV_cons_none l

lemma minCol_zeroCol (W : ℕ → ℕ → FVal) (m j : ℕ) (hm : 1 ≤ m)
    (hz : ∀ i, W i j = none) : minCol W m j = none := by
  obtain ⟨l, hl⟩ := colList_zeroCol_head W m j hm hz
  rw [minCol, hl]
  exact minFV_cons_none l

lemma distRow_of_none (W : ℕ → ℕ → FVal) (A : ℕ → FVal) (width i j : ℕ)
    (hj : j < width) (hW : W i j = none) : distRow W A width i = none := by
  rw [distRow]
  have hmem : none ∈ (List.range width).map
      (fun j => sqV (subV (W i j) (A j))) := by
    refine List.mem_map.mpr ⟨j, List.mem_range.mpr hj, ?_⟩
    rw [hW, subV_none_left, sqV_none]
  rw [sumFV_eq_none _ hmem, sqrtV_none]

lemma mkResult_zeroCol (M : ℕ → ℕ → ℝ) (m n : ℕ) (wv : ℕ → ℝ)
    (tv : ℕ → String) (j : ℕ) (hj : j < n)
    (hz : ∀ i < m, M i j = 0) :
    (∀ i, (mkResult M m n n wv tv).normalized i j = none) ∧
    (∀ i, (mkResult M m n n wv tv).weighted i j = none) ∧
    (∀ i, (mkResult M m n n wv tv).Dplus i = none) ∧
    (∀ i, (mkResult M m n n wv tv).Dminus i = none) ∧
    ∀ i, (mkResult M m n n wv tv).pref i = 0 := by
  have hwz : ∀ i, bWeighted M m n n wv i j = none := fun i =>
    bWeighted_zeroCol M m n wv j hj hz i
  have hDp : ∀ i, (mkResult M m n n wv tv).Dplus i = none := by
    intro i
    show distRow _ _ (bWidth n n) i = none
    rw [bWidth_self]
    exact distRow_of_none _ _ n i j hj (hwz i)
  have hDm : ∀ i, (mkResult M m n n wv tv).Dminus i = none := by
    intro i
    show distRow _ _ (bWidth n n) i = none
    rw [bWidth_self]
    exact distRow_of_none _ _ n i j hj (hwz i)
  refine ⟨fun i => normalize_zeroCol M m j hz i, hwz, hDp, hDm, fun i => ?_⟩
  rw [mkResult_pref, hDp i]
  exact prefVal_none_left _

/-! ### Shape of the distance values and bounds on the preference values -/

lemma distRow_shape (W : ℕ → ℕ → FVal) (A : ℕ → FVal) (width i : ℕ) :
    distRow W A width i = none ∨
      ∃ a, distRow W A width i = some a ∧ 0 ≤ a := by
  rw [distRow]
  cases h : sumFV ((List.range width).map (fun j => sqV (subV (W i j) (A j))))
  · left; rw [sqrtV_none]
  · rename_i s
    rw [sqrtV]
    by_cases hs : s < 0
    · left; simp [hs]
    · right
      exact ⟨Real.sqrt s, by simp [hs], Real.sqrt_nonneg s⟩

lemma prefVal_bounds (x y : FVal)
    (hx : x = none ∨ ∃ a, x = some a ∧ 0 ≤ a)
    (hy : y = none ∨ ∃ b, y = some b ∧ 0 ≤ b) :
    0 ≤ prefVal x y ∧ prefVal x y ≤ 1 := by
  rcases hx with rfl | ⟨a, rfl, ha⟩
  · rw [prefVal_none_left]; norm_num
  rcases hy with rfl | ⟨b, rfl, hb⟩
  · rw [prefVal_none_right]; norm_num
  rw [prefVal_some_some]
  by_cases h : a + b = 0
  · simp [h]
  · have hab : 0 < a + b := lt_of_le_of_ne (by linarith) (Ne.symm h)
    simp only [h, if_false]
    refine ⟨by positivity, ?_⟩
    rw [div_le_one hab]; linarith

/-! ### Claim theorems: degenerate zero-column behaviour (C3, C10) and
score bounds (C6) -/

/-- C3, counterexample: on the matrix [[0, 1], [0, 2]], whose column 0 is
all-zero, the normalizer does not yield zero for entry (0, 0) of that
column; it yields NaN (the numpy division is 0/0), refuting the claimed
zero-substitution policy. -/
theorem normalizer_zero_column_not_zero :
    ¬ normalize (matFun [[0, 1], [0, 2]]) 2 0 0 = some 0 := by
  have hz : ∀ i < 2, matFun [[0, 1], [0, 2]] i 0 = 0 := by
    intro i hi
    interval_cases i <;> simp [matFun]
  rw [normalize_zeroCol _ _ _ hz]
  simp

/-- C3, amended: for every valid input whose column j is entirely zero, the
normalizer yields NaN (not zero, and without raising) for every entry of
that column, and the computation as a whole does not fail on this input. -/
theorem normalizer_zero_column_nan_no_failure (data : List (List ℝ))
    (w : List ℝ) (t : List String) (j : ℕ) (hv : Valid data w t)
    (hj : j < nCrit data) (hz : ∀ i < data.length, matFun data i j = 0) :
    (∀ i, normalize (matFun data) data.length i j = none) ∧
    ∃ res, perform data w t = .ok res :=
  ⟨fun i => normalize_zeroCol _ _ _ hz i, _, perform_valid data w t hv⟩

/-- Witness for the amended C3 at the concrete input
data = [[0, 1], [0, 2]], weights = [1, 1], types = [benefit, cost]. -/
theorem normalizer_zero_column_nan_no_failure_witness :
    (∀ i, normalize (matFun [[0, 1], [0, 2]]) 2 i 0 = none) ∧
    ∃ res, perform [[0, 1], [0, 2]] [1, 1] ["benefit", "cost"] = .ok res :=
  normalizer_zero_column_nan_no_failure [[0, 1], [0, 2]] [1, 1]
    ["benefit", "cost"] 0 (by decide) (by decide)
    (by intro i hi; simp only [List.length_cons, List.length_nil] at hi
        interval_cases i <;> simp [matFun])

/-- C10: for every valid input containing an all-zero column, the
computation returns without raising, the zero column normalizes to NaN
entries that propagate to both full distance vectors, and every preference
score in the result is exactly 0 (NaN is replaced by 0 only at the final
scoring step). -/
theorem zero_column_all_scores_zero (data : List (List ℝ)) (w : List ℝ)
    (t : List String) (j : ℕ) (hv : Valid data w t) (hj : j < nCrit data)
    (hz : ∀ i < data.length, matFun data i j = 0) :
    ∃ res, perform data w t = .ok res ∧
      (∀ i, res.normalized i j = none) ∧
      (∀ i, res.weighted i j = none) ∧
      (∀ i, res.Dplus i = none) ∧
      (∀ i, res.Dminus i = none) ∧
      ∀ i, res.pref i = 0 := by
  refine ⟨_, perform_valid data w t hv, ?_⟩
  exact mkResult_zeroCol (matFun data) data.length (nCrit data) _ _ j
    hj hz

/-- Witness for C10 at the concrete input data = [[0, 1], [0, 2]],
weights = [1, 1], types = [benefit, cost]: column 0 is all-zero. -/
theorem zero_column_all_scores_zero_witness :
    ∃ res, perform [[0, 1], [0, 2]] [1, 1] ["benefit", "cost"] = .ok res ∧
      (∀ i, res.normalized i 0 = none) ∧
      (∀ i, res.weighted i 0 = none) ∧
      (∀ i, res.Dplus i = none) ∧
      (∀ i, res.Dminus i = none) ∧
      ∀ i, res.pref i = 0 :=
  zero_column_all_scores_zero [[0, 1], [0, 2]] [1, 1] ["benefit", "cost"] 0
    (by decide) (by decide)
    (by intro i hi; simp only [List.length_cons, List.length_nil] at hi
        interval_cases i <;> simp [matFun])

/-- C6: for every valid input, every preference score returned by the
computation lies in the closed interval [0, 1]. -/
theorem preference_scores_in_unit_interval (data : List (List ℝ))
    (w : List ℝ) (t : List String) (hv : Valid data w t) :
    ∃ res, perform data w t = .ok res ∧
      ∀ i, 0 ≤ res.pref i ∧ res.pref i ≤ 1 := by
  refine ⟨_, perform_valid data w t hv, fun i => ?_⟩
  rw [mkResult_pref]
  exact prefVal_bounds _ _ (distRow_shape _ _ _ _) (distRow_shape _ _ _ _)

/-- Witness for C6 at the concrete input data = [[250, 16], [200, 32]],
weights = [1, 2], types = [cost, benefit]. -/
theorem preference_scores_in_unit_interval_witness :
    ∃ res, perform [[250, 16], [200, 32]] [1, 2] ["cost", "benefit"] =
        .ok res ∧ ∀ i, 0 ≤ res.pref i ∧ res.pref i ≤ 1 :=
  preference_scores_in_unit_interval [[250, 16], [200, 32]] [1, 2]
    ["cost", "benefit"] (by decide)

/-! ### Claim C2: the normalizer formula and unit column norms -/

/-- C2: for every matrix with m at least 1, n at least 1 whose every column
has a nonzero entry, the normalizer returns entry M[i][j] divided by the
Euclidean norm of column j, and each normalized column has L2 norm 1. -/
theorem normalizer_formula_and_unit_norm (M : ℕ → ℕ → ℝ) (m n : ℕ)
    (hm : 1 ≤ m) (hn : 1 ≤ n) (hnz : ∀ j < n, ∃ i < m, M i j ≠ 0)
    (i j : ℕ) (hj : j < n) :
    normalize M m i j = some (M i j / Real.sqrt (colSq M m j)) ∧
    Real.sqrt (∑ r ∈ Finset.range m, ((normalize M m r j).getD 0) ^ 2) =
      1 := by
  have hpos : 0 < colSq M m j := colSq_pos M m j (hnz j hj)
  refine ⟨normalize_of_pos M m j hpos i, ?_⟩
  have hterm : ∀ r ∈ Finset.range m,
      ((normalize M m r j).getD 0) ^ 2 = (M r j) ^ 2 / colSq M m j := by
    intro r _
    rw [normalize_of_pos M m j hpos r, Option.getD_some, div_pow,
      Real.sq_sqrt hpos.le]
  rw [Finset.sum_congr rfl hterm, ← Finset.sum_div]
  have hsum : ∑ r ∈ Finset.range m, (M r j) ^ 2 = colSq M m j := rfl
  rw [hsum, div_self (ne_of_gt hpos), Real.sqrt_one]

/-- Witness for C2 at the concrete all-ones 1 by 1 matrix. -/
theorem normalizer_formula_and_unit_norm_witness :
    normalize (fun _ _ => 1) 1 0 0 =
      some (1 / Real.sqrt (colSq (fun _ _ => 1) 1 0)) ∧
    Real.sqrt (∑ r ∈ Finset.range 1,
      ((normalize (fun _ _ => 1) 1 r 0).getD 0) ^ 2) = 1 :=
  normalizer_formula_and_unit_norm (fun _ _ => 1) 1 1 le_rfl le_rfl
    (fun j _ => ⟨0, Nat.zero_lt_one, one_ne_zero⟩) 0 0 Nat.zero_lt_one

/-! ### Claim C4: ideal points are column extrema -/

/-- The set of values appearing in column j of the first m rows. -/
def colSet (W : ℕ → ℕ → ℝ) (m j : ℕ) : Set ℝ := {x | ∃ i < m, W i j = x}

lemma colList_some (W : ℕ → ℕ → ℝ) (m j : ℕ) :
    colList (fun i j => some (W i j)) m j =
      ((List.range m).map (fun i => W i j)).map some := by
  rw [colList, List.map_map]
  rfl

lemma mem_colRange (W : ℕ → ℕ → ℝ) (m j : ℕ) (x : ℝ) :
    x ∈ (List.range m).map (fun i => W i j) ↔ x ∈ colSet W m j := by
  rw [List.mem_map]
  constructor
  · rintro ⟨i, hi, rfl⟩
    exact ⟨i, List.mem_range.mp hi, rfl⟩
  · rintro ⟨i, hi, rfl⟩
    exact ⟨i, List.mem_range.mpr hi, rfl⟩

lemma colRange_ne_nil (W : ℕ → ℕ → ℝ) (m j : ℕ) (hm : 1 ≤ m) :
    (List.range m).map (fun i => W i j) ≠ [] := by
  simp only [ne_eq, List.map_eq_nil_iff, List.range_eq_nil]
  omega

/-- C4: on a matrix of finite values, the ideal-point extractor returns the
column maximum as the positive ideal and the column minimum as the negative
ideal for a benefit criterion, and the reverse for a cost criterion. -/
theorem ideal_solutions_max_min (W : ℕ → ℕ → ℝ) (m : ℕ) (tv : ℕ → String)
    (j : ℕ) (hm : 1 ≤ m) :
    ∃ a b, idealPlus (fun i j => some (W i j)) m tv j = some a ∧
      idealMinus (fun i j => some (W i j)) m tv j = some b ∧
      (tv j = "benefit" →
        IsGreatest (colSet W m j) a ∧ IsLeast (colSet W m j) b) ∧
      (tv j = "cost" →
        IsLeast (colSet W m j) a ∧ IsGreatest (colSet W m j) b) := by
  obtain ⟨mx, hmx, hmxm, hmxub⟩ :=
    maxFV_spec ((List.range m).map (fun i => W i j)) (colRange_ne_nil W m j hm)
  obtain ⟨mn, hmn, hmnm, hmnlb⟩ :=
    minFV_spec ((List.range m).map (fun i => W i j)) (colRange_ne_nil W m j hm)
  have hGr : IsGreatest (colSet W m j) mx :=
    ⟨(mem_colRange W m j mx).mp hmxm,
      fun x hx => hmxub x ((mem_colRange W m j x).mpr hx)⟩
  have hLe : IsLeast (colSet W m j) mn :=
    ⟨(mem_colRange W m j mn).mp hmnm,
      fun x hx => hmnlb x ((mem_colRange W m j x).mpr hx)⟩
  by_cases ht : tv j = "benefit"
  · refine ⟨mx, mn, ?_, ?_, fun _ => ⟨hGr, hLe⟩, fun hc => ?_⟩
    · rw [idealPlus, if_pos ht, maxCol, colList_some, hmx]
    · rw [idealMinus, if_pos ht, minCol, colList_some, hmn]
    · rw [ht] at hc
      exact absurd hc (by decide)
  · refine ⟨mn, mx, ?_, ?_, fun hb => absurd hb ht, fun _ => ⟨hLe, hGr⟩⟩
    · rw [idealPlus, if_neg ht, minCol, colList_some, hmn]
    · rw [idealMinus, if_neg ht, maxCol, colList_some, hmx]

/-- Witness for C4 on the 2-row column W i j = i with a benefit type. -/
theorem ideal_solutions_max_min_witness :
    ∃ a b, idealPlus (fun i _ => some ((i : ℕ) : ℝ)) 2
        (fun _ => "benefit") 0 = some a ∧
      idealMinus (fun i _ => some ((i : ℕ) : ℝ)) 2
        (fun _ => "benefit") 0 = some b ∧
      ((fun (_ : ℕ) => "benefit") 0 = "benefit" →
        IsGreatest (colSet (fun i _ => ((i : ℕ) : ℝ)) 2 0) a ∧
        IsLeast (colSet (fun i _ => ((i : ℕ) : ℝ)) 2 0) b) ∧
      ((fun (_ : ℕ) => "benefit") 0 = "cost" →
        IsLeast (colSet (fun i _ => ((i : ℕ) : ℝ)) 2 0) a ∧
        IsGreatest (colSet (fun i _ => ((i : ℕ) : ℝ)) 2 0) b) :=
  ideal_solutions_max_min (fun i _ => ((i : ℕ) : ℝ)) 2
    (fun _ => "benefit") 0 (by norm_num)

/-! ### Claim C8: distances are nonnegative, zero exactly at the ideal -/

lemma list_sum_nonneg_eq_zero (l : List ℝ) (h : ∀ x ∈ l, 0 ≤ x) :
    l.sum = 0 ↔ ∀ x ∈ l, x = 0 := by
  induction l with
  | nil => simp
  | cons a as ih =>
    simp only [List.sum_cons, List.mem_cons]
    have ha : 0 ≤ a := h a (List.mem_cons_self _ _)
    have has : 0 ≤ as.sum :=
      List.sum_nonneg (fun x hx => h x (List.mem_cons_of_mem _ hx))
    rw [add_eq_zero_iff_of_nonneg ha has,
      ih (fun x hx => h x (List.mem_cons_of_mem _ hx))]
    constructor
    · rintro ⟨h1, h2⟩ x (rfl | hx)
      exacts [h1, h2 x hx]
    · intro hall
      exact ⟨hall a (Or.inl rfl), fun x hx => hall x (Or.inr hx)⟩

lemma distRow_some (W : ℕ → ℕ → ℝ) (A : ℕ → ℝ) (width i : ℕ) :
    distRow (fun i j => some (W i j)) (fun j => some (A j)) width i =
      some (Real.sqrt
        (((List.range width).map (fun j => (W i j - A j) ^ 2)).sum)) := by
  rw [distRow]
  have hlist : (List.range width).map
      (fun j => sqV (subV (some (W i j)) (some (A j)))) =
      ((List.range width).map (fun j => (W i j - A j) ^ 2)).map some := by
    rw [List.map_map]
    rfl
  rw [hlist, sumFV_map_some, sqrtV]
  have hnn : 0 ≤ ((List.range width).map (fun j => (W i j - A j) ^ 2)).sum :=
    List.sum_nonneg (by
      intro x hx
      obtain ⟨jj, _, rfl⟩ := List.mem_map.mp hx
      exact sq_nonneg _)
  simp [not_lt.mpr hnn]

/-- C8: on finite inputs, each distance is a defined nonnegative real, and
the distance of row i to the ideal point is zero exactly when row i equals
the ideal point on every criterion. -/
theorem distances_nonneg_and_zero_iff (W : ℕ → ℕ → ℝ) (A : ℕ → ℝ)
    (width i : ℕ) :
    ∃ d, distRow (fun i j => some (W i j)) (fun j => some (A j)) width i =
        some d ∧ 0 ≤ d ∧ (d = 0 ↔ ∀ j < width, W i j = A j) := by
  refine ⟨_, distRow_some W A width i, Real.sqrt_nonneg _, ?_⟩
  have hnn : ∀ x ∈ (List.range width).map (fun j => (W i j - A j) ^ 2),
      0 ≤ x := by
    intro x hx
    obtain ⟨jj, _, rfl⟩ := List.mem_map.mp hx
    exact sq_nonneg _
  rw [Real.sqrt_eq_zero (List.sum_nonneg hnn),
    list_sum_nonneg_eq_zero _ hnn]
  constructor
  · intro hall j hj
    have := hall ((W i j - A j) ^ 2)
      (List.mem_map.mpr ⟨j, List.mem_range.mpr hj, rfl⟩)
    have hsub : W i j - A j = 0 := by
      have := sq_eq_zero_iff.mp this
      exact this
    linarith
  · intro hall x hx
    obtain ⟨jj, hjj, rfl⟩ := List.mem_map.mp hx
    rw [hall jj (List.mem_range.mp hjj)]
    ring

/-! ### Claim C5: the preference scorer and the single-alternative case -/

lemma range_one_eq : List.range 1 = [0] := rfl

lemma idealPlus_single (W : ℕ → ℕ → FVal) (tv : ℕ → String) (j : ℕ) :
    idealPlus W 1 tv j = W 0 j := by
  rw [idealPlus, maxCol, minCol, colList, range_one_eq, List.map_cons,
    List.map_nil]
  split <;> rfl

lemma idealMinus_single (W : ℕ → ℕ → FVal) (tv : ℕ → String) (j : ℕ) :
    idealMinus W 1 tv j = W 0 j := by
  rw [idealMinus, maxCol, minCol, colList, range_one_eq, List.map_cons,
    List.map_nil]
  split <;> rfl

lemma sumFV_none_or_zero (l : List FVal)
    (h : ∀ x ∈ l, x = none ∨ x = some 0) :
    sumFV l = none ∨ sumFV l = some 0 := by
  induction l with
  | nil => right; rfl
  | cons a as ih =>
    have has := ih (fun x hx => h x (List.mem_cons_of_mem _ hx))
    rw [sumFV, List.foldr_cons,
      show List.foldr addV (some 0) as = sumFV as from rfl]
    rcases h a (List.mem_cons_self _ _) with rfl | rfl
    · left; exact addV_none_left _
    · rcases has with h2 | h2 <;> rw [h2]
      · left; exact addV_none_right _
      · right; rw [addV_some_some]; norm_num

lemma distRow_self_ideal (W : ℕ → ℕ → FVal) (width : ℕ) :
    distRow W (fun j => W 0 j) width 0 = none ∨
      distRow W (fun j => W 0 j) width 0 = some 0 := by
  rw [distRow]
  have hterm : ∀ x ∈ (List.range width).map
      (fun j => sqV (subV (W 0 j) (W 0 j))), x = none ∨ x = some 0 := by
    intro x hx
    obtain ⟨j, _, rfl⟩ := List.mem_map.mp hx
    cases h : W 0 j
    · left; rw [subV_none_left, sqV_none]
    · right
      rename_i a
      rw [show subV (some a) (some a) = some (a - a) from rfl]
      rw [show sqV (some (a - a)) = some ((a - a) ^ 2) from rfl]
      norm_num
  rcases sumFV_none_or_zero _ hterm with h | h <;> rw [h]
  · left; rw [sqrtV_none]
  · right
    rw [sqrtV]
    norm_num

lemma mkResult_single_pref (M : ℕ → ℕ → ℝ) (n : ℕ) (wv : ℕ → ℝ)
    (tv : ℕ → String) : (mkResult M 1 n n wv tv).pref 0 = 0 := by
  rw [mkResult_pref]
  have hAp : idealPlus (bWeighted M 1 n n wv) 1 tv =
      fun j => bWeighted M 1 n n wv 0 j :=
    funext (fun j => idealPlus_single _ tv j)
  have hAm : idealMinus (bWeighted M 1 n n wv) 1 tv =
      fun j => bWeighted M 1 n n wv 0 j :=
    funext (fun j => idealMinus_single _ tv j)
  show prefVal
      (distRow (bWeighted M 1 n n wv) (idealPlus (bWeighted M 1 n n wv) 1 tv)
        (bWidth n n) 0)
      (distRow (bWeighted M 1 n n wv) (idealMinus (bWeighted M 1 n n wv) 1 tv)
        (bWidth n n) 0) = 0
  rw [hAp, hAm]
  rcases distRow_self_ideal (bWeighted M 1 n n wv) (bWidth n n) with h | h <;>
    rw [h]
  · exact prefVal_none_left _
  · rw [prefVal_some_some]
    norm_num

/-- C5: the preference scorer returns D_minus[i] / (D_plus[i] + D_minus[i])
whenever the denominator is nonzero and exactly 0 (a real number, not NaN,
with no exception) when the denominator is zero; for a single-alternative
valid input the score of the alternative is 0 and its rank is 1. -/
theorem preference_scorer_formula_and_single_row :
    (∀ dp dm : ℝ,
      (dp + dm ≠ 0 → prefVal (some dp) (some dm) = dm / (dp + dm)) ∧
      (dp + dm = 0 → prefVal (some dp) (some dm) = 0)) ∧
    ∀ data w t, Valid data w t → data.length = 1 →
      ∃ res, perform data w t = .ok res ∧ res.pref 0 = 0 ∧
        rankedTriples (prefList res) = [(1, 0, 0)] := by
  constructor
  · intro dp dm
    rw [prefVal_some_some]
    constructor
    · intro h; rw [if_neg h]
    · intro h; rw [if_pos h]
  · intro data w t hv hm1
    refine ⟨_, perform_valid data w t hv, ?_, ?_⟩
    · rw [show data.length = 1 from hm1]
      exact mkResult_single_pref _ _ _ _
    · have hlist : prefList (mkResult (matFun data) data.length (nCrit data)
          (nCrit data) (fun j => w.getD j 0) (fun j => t.getD j "")) =
          [0] := by
        rw [prefList, show (mkResult (matFun data) data.length (nCrit data)
          (nCrit data) (fun j => w.getD j 0) (fun j => t.getD j "")).m =
          data.length from rfl, hm1, range_one_eq, List.map_cons,
          List.map_nil, mkResult_single_pref (matFun data) (nCrit data)]
      rw [hlist]
      simp [rankedTriples, rankingOf, List.enum, List.enumFrom,
        List.insertionSort, List.orderedInsert]

/-! ### Claim C7: dominance is preserved by the preference scores -/

lemma mkResult_Dplus (M : ℕ → ℕ → ℝ) (m n k : ℕ) (wv : ℕ → ℝ)
    (tv : ℕ → String) (i : ℕ) :
    (mkResult M m n k wv tv).Dplus i =
      distRow (bWeighted M m n k wv)
        (idealPlus (bWeighted M m n k wv) m tv) (bWidth n k) i := rfl

lemma mkResult_Dminus (M : ℕ → ℕ → ℝ) (m n k : ℕ) (wv : ℕ → ℝ)
    (tv : ℕ → String) (i : ℕ) :
    (mkResult M m n k wv tv).Dminus i =
      distRow (bWeighted M m n k wv)
        (idealMinus (bWeighted M m n k wv) m tv) (bWidth n k) i := rfl

lemma distRow_some_of (W : ℕ → ℕ → FVal) (A : ℕ → FVal) (Wr : ℕ → ℕ → ℝ)
    (Ar : ℕ → ℝ) (width i : ℕ) (hW : ∀ j < width, W i j = some (Wr i j))
    (hA : ∀ j < width, A j = some (Ar j)) :
    distRow W A width i =
      some (Real.sqrt (((List.range width).map
        (fun j => (Wr i j - Ar j) ^ 2)).sum)) := by
  rw [distRow]
  have hlist : (List.range width).map (fun j => sqV (subV (W i j) (A j))) =
      ((List.range width).map (fun j => (Wr i j - Ar j) ^ 2)).map some := by
    rw [List.map_map]
    apply List.map_congr_left
    intro j hjm
    have hj := List.mem_range.mp hjm
    rw [hW j hj, hA j hj]
    rfl
  rw [hlist, sumFV_map_some, sqrtV]
  have hnn : 0 ≤ ((List.range width).map
      (fun j => (Wr i j - Ar j) ^ 2)).sum :=
    List.sum_nonneg (fun x hx => by
      obtain ⟨jj, _, rfl⟩ := List.mem_map.mp hx
      exact sq_nonneg _)
  simp [not_lt.mpr hnn]

lemma prefVal_mono (a b c d : ℝ) (ha : 0 ≤ a) (hd : 0 ≤ d)
    (h1 : a ≤ c) (h2 : d ≤ b) :
    prefVal (some c) (some d) ≤ prefVal (some a) (some b) := by
  have hb : 0 ≤ b := le_trans hd h2
  have hc : 0 ≤ c := le_trans ha h1
  rw [prefVal_some_some, prefVal_some_some]
  by_cases hcd : c + d = 0
  · rw [if_pos hcd]
    by_cases hab : a + b = 0
    · rw [if_pos hab]
    · rw [if_neg hab]
      have hab2 : 0 < a + b := lt_of_le_of_ne (by linarith) (Ne.symm hab)
      positivity
  · rw [if_neg hcd]
    have hcd2 : 0 < c + d := lt_of_le_of_ne (by linarith) (Ne.symm hcd)
    by_cases hab : a + b = 0
    · have hb0 : b = 0 := by linarith
      have hd0 : d = 0 := le_antisymm (hb0 ▸ h2) hd
      rw [if_pos hab, hd0, zero_div]
    · rw [if_neg hab]
      have hab2 : 0 < a + b := lt_of_le_of_ne (by linarith) (Ne.symm hab)
      rw [div_le_div_iff₀ hcd2 hab2]
      have hkey : d * a ≤ b * c := mul_le_mul h2 h1 ha hb
      nlinarith [hkey]

lemma mkResult_dominance (M : ℕ → ℕ → ℝ) (m n : ℕ) (wv : ℕ → ℝ)
    (tv : ℕ → String) (i k : ℕ) (hm : 1 ≤ m) (hi : i < m) (hk : k < m)
    (hw0 : ∀ j < n, 0 ≤ wv j)
    (htypes : ∀ j < n, tv j = "benefit" ∨ tv j = "cost")
    (hdom : ∀ j < n, (tv j = "benefit" → M k j ≤ M i j) ∧
      (tv j = "cost" → M i j ≤ M k j)) :
    (mkResult M m n n wv tv).pref k ≤ (mkResult M m n n wv tv).pref i := by
  by_cases hzc : ∀ j, j < n → ∃ r, r < m ∧ M r j ≠ 0
  · -- every column has a nonzero entry: the whole pipeline is finite
    have hpos : ∀ j, j < n → 0 < colSq M m j := by
      intro j hj
      obtain ⟨r, hr, hne⟩ := hzc j hj
      exact colSq_pos M m j ⟨r, hr, hne⟩
    obtain ⟨Wr, hWfin, hWmono⟩ : ∃ Wr : ℕ → ℕ → ℝ,
        (∀ r j, j < n → bWeighted M m n n wv r j = some (Wr r j)) ∧
        ∀ r s j, j < n → M r j ≤ M s j → Wr r j ≤ Wr s j := by
      refine ⟨fun r j => M r j / Real.sqrt (colSq M m j) * wv j, ?_, ?_⟩
      · intro r j hj
        rw [bWeighted_eq M m n wv r j hj, normalize_of_pos M m j (hpos j hj)]
        rfl
      · intro r s j hj hle
        have hdj : 0 < Real.sqrt (colSq M m j) :=
          Real.sqrt_pos.mpr (hpos j hj)
        exact mul_le_mul_of_nonneg_right
          ((div_le_div_iff_of_pos_right hdj).mpr hle) (hw0 j hj)
    have hcol : ∀ j, j < n → colList (bWeighted M m n n wv) m j =
        ((List.range m).map (fun r => Wr r j)).map some := by
      intro j hj
      rw [colList, List.map_map]
      exact List.map_congr_left (fun r _ => hWfin r j hj)
    obtain ⟨apf, amf, hspec⟩ : ∃ apf amf : ℕ → ℝ, ∀ j, ∀ hj : j < n,
        idealPlus (bWeighted M m n n wv) m tv j = some (apf j) ∧
        idealMinus (bWeighted M m n n wv) m tv j = some (amf j) ∧
        (tv j = "benefit" →
          (∀ r < m, Wr r j ≤ apf j) ∧ ∀ r < m, amf j ≤ Wr r j) ∧
        (tv j ≠ "benefit" →
          (∀ r < m, apf j ≤ Wr r j) ∧ ∀ r < m, Wr r j ≤ amf j) := by
      have hIdeals : ∀ j, j < n → ∃ ap am : ℝ,
          idealPlus (bWeighted M m n n wv) m tv j = some ap ∧
          idealMinus (bWeighted M m n n wv) m tv j = some am ∧
          (tv j = "benefit" →
            (∀ r < m, Wr r j ≤ ap) ∧ ∀ r < m, am ≤ Wr r j) ∧
          (tv j ≠ "benefit" →
            (∀ r < m, ap ≤ Wr r j) ∧ ∀ r < m, Wr r j ≤ am) := by
        intro j hj
        obtain ⟨mx, hmx, _, hub⟩ :=
          maxFV_spec ((List.range m).map (fun r => Wr r j))
            (colRange_ne_nil Wr m j hm)
        obtain ⟨mn, hmn, _, hlb⟩ :=
          minFV_spec ((List.range m).map (fun r => Wr r j))
            (colRange_ne_nil Wr m j hm)
        have hub2 : ∀ r < m, Wr r j ≤ mx := fun r hr =>
          hub _ (List.mem_map.mpr ⟨r, List.mem_range.mpr hr, rfl⟩)
        have hlb2 : ∀ r < m, mn ≤ Wr r j := fun r hr =>
          hlb _ (List.mem_map.mpr ⟨r, List.mem_range.mpr hr, rfl⟩)
        by_cases hb : tv j = "benefit"
        · exact ⟨mx, mn,
            by rw [idealPlus, if_pos hb, maxCol, hcol j hj, hmx],
            by rw [idealMinus, if_pos hb, minCol, hcol j hj, hmn],
            fun _ => ⟨hub2, hlb2⟩, fun hc => absurd hb hc⟩
        · exact ⟨mn, mx,
            by rw [idealPlus, if_neg hb, minCol, hcol j hj, hmn],
            by rw [idealMinus, if_neg hb, maxCol, hcol j hj, hmx],
            fun hbb => absurd hbb hb, fun _ => ⟨hlb2, hub2⟩⟩
      choose ap am hap using hIdeals
      refine ⟨fun j => if h : j < n then ap j h else 0,
        fun j => if h : j < n then am j h else 0, ?_⟩
      intro j hj
      simp only [dif_pos hj]
      exact hap j hj
    have hDp : ∀ r, distRow (bWeighted M m n n wv)
        (idealPlus (bWeighted M m n n wv) m tv) n r =
        some (Real.sqrt (((List.range n).map
          (fun j => (Wr r j - apf j) ^ 2)).sum)) := fun r =>
      distRow_some_of _ _ Wr apf n r (fun j hj => hWfin r j hj)
        (fun j hj => (hspec j hj).1)
    have hDm : ∀ r, distRow (bWeighted M m n n wv)
        (idealMinus (bWeighted M m n n wv) m tv) n r =
        some (Real.sqrt (((List.range n).map
          (fun j => (Wr r j - amf j) ^ 2)).sum)) := fun r =>
      distRow_some_of _ _ Wr amf n r (fun j hj => hWfin r j hj)
        (fun j hj => (hspec j hj).2.1)
    have hSp : ((List.range n).map (fun j => (Wr i j - apf j) ^ 2)).sum ≤
        ((List.range n).map (fun j => (Wr k j - apf j) ^ 2)).sum := by
      apply List.sum_le_sum
      intro j hjm
      have hj := List.mem_range.mp hjm
      by_cases hb : tv j = "benefit"
      · have h1 : Wr i j ≤ apf j := ((hspec j hj).2.2.1 hb).1 i hi
        have h2 : Wr k j ≤ Wr i j := hWmono k i j hj ((hdom j hj).1 hb)
        have h3 : (apf j - Wr i j) ^ 2 ≤ (apf j - Wr k j) ^ 2 :=
          pow_le_pow_left₀ (by linarith) (by linarith) 2
        calc (Wr i j - apf j) ^ 2 = (apf j - Wr i j) ^ 2 := by ring
          _ ≤ (apf j - Wr k j) ^ 2 := h3
          _ = (Wr k j - apf j) ^ 2 := by ring
      · have hcost : tv j = "cost" := (htypes j hj).resolve_left hb
        have h1 : apf j ≤ Wr i j := ((hspec j hj).2.2.2 hb).1 i hi
        have h2 : Wr i j ≤ Wr k j := hWmono i k j hj ((hdom j hj).2 hcost)
        exact pow_le_pow_left₀ (by linarith) (by linarith) 2
    have hSm : ((List.range n).map (fun j => (Wr k j - amf j) ^ 2)).sum ≤
        ((List.range n).map (fun j => (Wr i j - amf j) ^ 2)).sum := by
      apply List.sum_le_sum
      intro j hjm
      have hj := List.mem_range.mp hjm
      by_cases hb : tv j = "benefit"
      · have h1 : amf j ≤ Wr k j := ((hspec j hj).2.2.1 hb).2 k hk
        have h2 : Wr k j ≤ Wr i j := hWmono k i j hj ((hdom j hj).1 hb)
        exact pow_le_pow_left₀ (by linarith) (by linarith) 2
      · have hcost : tv j = "cost" := (htypes j hj).resolve_left hb
        have h1 : Wr k j ≤ amf j := ((hspec j hj).2.2.2 hb).2 k hk
        have h2 : Wr i j ≤ Wr k j := hWmono i k j hj ((hdom j hj).2 hcost)
        have h3 : (amf j - Wr k j) ^ 2 ≤ (amf j - Wr i j) ^ 2 :=
          pow_le_pow_left₀ (by linarith) (by linarith) 2
        calc (Wr k j - amf j) ^ 2 = (amf j - Wr k j) ^ 2 := by ring
          _ ≤ (amf j - Wr i j) ^ 2 := h3
          _ = (Wr i j - amf j) ^ 2 := by ring
    rw [mkResult_pref, mkResult_pref, mkResult_Dplus M m n n wv tv k,
      mkResult_Dminus M m n n wv tv k, mkResult_Dplus M m n n wv tv i,
      mkResult_Dminus M m n n wv tv i, bWidth_self, hDp i, hDp k,
      hDm i, hDm k]
    exact prefVal_mono _ _ _ _ (Real.sqrt_nonneg _) (Real.sqrt_nonneg _)
      (Real.sqrt_le_sqrt hSp) (Real.sqrt_le_sqrt hSm)
  · -- some column is all-zero: every preference score is 0
    push_neg at hzc
    obtain ⟨j, hj, hz⟩ := hzc
    have hz2 : ∀ r < m, M r j = 0 := fun r hr => hz r hr
    have h0 := (mkResult_zeroCol M m n wv tv j hj hz2).2.2.2.2
    rw [h0 i, h0 k]

/-- C7: for every valid input with non-negative weights, if alternative i
is at least as good as alternative k on every criterion (at least k's value
on every benefit criterion, at most k's value on every cost criterion),
then the computed preference score of i is at least that of k. -/
theorem dominance_preserves_preference (data : List (List ℝ)) (w : List ℝ)
    (t : List String) (i k : ℕ) (hv : Valid data w t)
    (hw0 : ∀ x ∈ w, 0 ≤ x) (hi : i < data.length) (hk : k < data.length)
    (hdom : ∀ j < nCrit data,
      (t.getD j "" = "benefit" → matFun data k j ≤ matFun data i j) ∧
      (t.getD j "" = "cost" → matFun data i j ≤ matFun data k j)) :
    ∃ res, perform data w t = .ok res ∧ res.pref k ≤ res.pref i := by
  refine ⟨_, perform_valid data w t hv, ?_⟩
  obtain ⟨hm, hn, hrect, hw, ht, htypes⟩ := hv
  apply mkResult_dominance
  · exact hm
  · exact hi
  · exact hk
  · intro j hj
    show 0 ≤ w.getD j 0
    have hjw : j < w.length := by omega
    rw [List.getD_eq_getElem w 0 hjw]
    exact hw0 _ (List.getElem_mem hjw)
  · intro j hj
    show t.getD j "" = "benefit" ∨ t.getD j "" = "cost"
    have hjt : j < t.length := by omega
    rw [List.getD_eq_getElem t "" hjt]
    exact htypes _ (List.getElem_mem hjt)
  · exact hdom

/-- Witness for C7: in data = [[2, 1], [1, 2]] with types
[benefit, cost] and weights [1, 1], alternative 0 dominates alternative 1,
so its score is at least alternative 1's. -/
theorem dominance_preserves_preference_witness :
    ∃ res, perform [[2, 1], [1, 2]] [1, 1] ["benefit", "cost"] = .ok res ∧
      res.pref 1 ≤ res.pref 0 :=
  dominance_preserves_preference [[2, 1], [1, 2]] [1, 1]
    ["benefit", "cost"] 0 1 (by decide)
    (by
      intro x hx
      simp only [List.mem_cons, List.not_mem_nil, or_false] at hx
      rcases hx with rfl | rfl <;> norm_num)
    (by decide) (by decide)
    (by
      intro j hj
      have hj2 : j < 2 := hj
      interval_cases j
      · refine ⟨fun _ => ?_, fun h => absurd h (by decide)⟩
        simp [matFun]
      · refine ⟨fun h => absurd h (by decide), fun _ => ?_⟩
        simp [matFun])

/-! ### Claim C1: the ranking is a stable descending sort -/

lemma pairwise_lex_orderedInsert (a : ℕ × ℝ) (L : List (ℕ × ℝ))
    (hs : L.Sorted scoreGE) (hp : L.Pairwise rankLex)
    (ha : ∀ b ∈ L, a.1 < b.1) :
    (List.orderedInsert scoreGE a L).Pairwise rankLex := by
  induction L with
  | nil => simp
  | cons b L ih =>
    rw [List.orderedInsert]
    by_cases h : scoreGE a b
    · rw [if_pos h]
      refine List.Pairwise.cons ?_ hp
      intro c hc
      have hcle : c.2 ≤ a.2 := by
        rcases List.mem_cons.mp hc with rfl | hcL
        · exact h
        · exact le_trans (List.rel_of_sorted_cons hs c hcL) h
      rcases lt_or_eq_of_le hcle with hlt | heq
      · exact Or.inl hlt
      · exact Or.inr ⟨heq.symm, ha c hc⟩
    · rw [if_neg h]
      refine List.Pairwise.cons ?_
        (ih hs.of_cons hp.of_cons (fun c hc => ha c (List.mem_cons_of_mem _ hc)))
      intro c hc
      rcases (List.mem_orderedInsert scoreGE).mp hc with rfl | hcL
      · exact Or.inl (not_le.mp h)
      · exact List.rel_of_pairwise_cons hp hcL

lemma pairwise_lex_insertionSort (l : List (ℕ × ℝ))
    (hl : l.Pairwise (fun x y => x.1 < y.1)) :
    (List.insertionSort scoreGE l).Pairwise rankLex := by
  induction l with
  | nil => simp
  | cons a l ih =>
    simp only [List.insertionSort]
    refine pairwise_lex_orderedInsert a _
      (List.sorted_insertionSort scoreGE l) (ih hl.of_cons) ?_
    intro b hb
    have hbl : b ∈ l := (List.perm_insertionSort scoreGE l).mem_iff.mp hb
    exact List.rel_of_pairwise_cons hl hbl

lemma pairwise_fst_lt_enum (l : List ℝ) :
    l.enum.Pairwise (fun x y => x.1 < y.1) := by
  have h := List.pairwise_lt_range l.length
  rw [← List.enum_map_fst l] at h
  exact List.pairwise_map.mp h

lemma ranking_spec (prefs : List ℝ) :
    (rankedTriples prefs).map (fun x => x.1) =
      (List.range prefs.length).map (fun p => p + 1) ∧
    ((rankingOf prefs).map Prod.fst).Perm (List.range prefs.length) ∧
    ((rankingOf prefs).map Prod.snd).Sorted (fun a b => b ≤ a) ∧
    (rankingOf prefs).Pairwise rankLex := by
  have hlen : (rankingOf prefs).length = prefs.length := by
    rw [rankingOf, (List.perm_insertionSort scoreGE prefs.enum).length_eq,
      List.enum_length]
  refine ⟨?_, ?_, ?_, ?_⟩
  · have h1 : (rankedTriples prefs).map (fun x => x.1) =
        (rankingOf prefs).enum.map (fun q => q.1 + 1) := by
      rw [rankedTriples, List.map_map]
      rfl
    have h2 : (rankingOf prefs).enum.map (fun q => q.1 + 1) =
        ((rankingOf prefs).enum.map Prod.fst).map (fun p => p + 1) := by
      rw [List.map_map]
      rfl
    rw [h1, h2, List.enum_map_fst, hlen]
  · have hperm : ((rankingOf prefs).map Prod.fst).Perm
        (prefs.enum.map Prod.fst) :=
      (List.perm_insertionSort scoreGE prefs.enum).map Prod.fst
    rw [List.enum_map_fst] at hperm
    exact hperm
  · have hs : (rankingOf prefs).Sorted scoreGE :=
      List.sorted_insertionSort scoreGE prefs.enum
    exact List.pairwise_map.mpr hs
  · exact pairwise_lex_insertionSort prefs.enum (pairwise_fst_lt_enum prefs)

/-- C1: for every valid input the computation succeeds and the ranking
assembled from the preference scores assigns the ranks 1..m in order, lists
alternative indices forming a permutation of 0..m-1, has its scores in
descending order, and breaks ties between equal scores by ascending
original index (the strict lexicographic pairwise property). -/
theorem calculate_ranking_correct (data : List (List ℝ)) (w : List ℝ)
    (t : List String) (hv : Valid data w t) :
    ∃ res, perform data w t = .ok res ∧ res.m = data.length ∧
      (rankedTriples (prefList res)).map (fun x => x.1) =
        (List.range data.length).map (fun p => p + 1) ∧
      ((rankingOf (prefList res)).map Prod.fst).Perm
        (List.range data.length) ∧
      ((rankingOf (prefList res)).map Prod.snd).Sorted (fun a b => b ≤ a) ∧
      (rankingOf (prefList res)).Pairwise rankLex := by
  refine ⟨_, perform_valid data w t hv, ?_, ?_⟩
  · simp [mkResult]
  have hlen : (prefList (mkResult (matFun data) data.length (nCrit data)
      (nCrit data) (fun j => w.getD j 0) (fun j => t.getD j ""))).length =
      data.length := by
    rw [prefList, List.length_map, List.length_range]
    simp [mkResult]
  have h := ranking_spec (prefList (mkResult (matFun data) data.length
    (nCrit data) (nCrit data) (fun j => w.getD j 0) (fun j => t.getD j "")))
  rw [hlen] at h
  exact h

/-- Witness for C1 at the concrete input data = [[1, 2], [3, 4]],
weights = [1, 1], types = [benefit, cost]. -/
theorem calculate_ranking_correct_witness :
    ∃ res, perform [[1, 2], [3, 4]] [1, 1] ["benefit", "cost"] = .ok res ∧
      res.m = 2 ∧
      (rankedTriples (prefList res)).map (fun x => x.1) =
        (List.range 2).map (fun p => p + 1) ∧
      ((rankingOf (prefList res)).map Prod.fst).Perm (List.range 2) ∧
      ((rankingOf (prefList res)).map Prod.snd).Sorted (fun a b => b ≤ a) ∧
      (rankingOf (prefList res)).Pairwise rankLex :=
  calculate_ranking_correct [[1, 2], [3, 4]] [1, 1] ["benefit", "cost"]
    (by decide)

/-! ### Claim C9: when the computation fails -/

/-- C9, counterexample: on the input data = [[1], [2]], weights = [1],
types = ["x"], the criterion-type value "x" is outside {benefit, cost},
yet the computation succeeds and returns a result (the code treats every
string other than "benefit" as cost), refuting the claim that any invalid
criterion-type value makes the computation fail. -/
theorem invalid_criterion_type_no_failure :
    (∃ res, perform [[1], [2]] [1] ["x"] = .ok res) ∧
    "x" ≠ "benefit" ∧ "x" ≠ "cost" :=
  ⟨⟨_, rfl⟩, by decide, by decide⟩

lemma bWidth_one (n : ℕ) : bWidth n 1 = n := by
  by_cases h : n = 1
  · simp [bWidth, h]
  · simp [bWidth, h]

/-- C9, amended: the computation fails, with no result returned, when the
matrix has no rows, when it is non-rectangular, when it is rectangular with
n different from 1 and the weight vector's length is neither n nor 1, and
when the weight vector has length n but the criterion-type vector is
shorter than n; in particular a weight vector of length n + 1 (with n at
least 1 and n criterion types) yields an error before any result is
produced.  It does not fail merely because a criterion-type value lies
outside {benefit, cost}, nor when n = 0, when the weight vector has length
1, or when the criterion-type vector is longer than n: whenever the matrix
has at least one row and is rectangular, the weight vector has length n or
1, and there are at least as many criterion types as broadcast columns, a
result is returned. -/
theorem failure_semantics_amended :
    (∀ w t, ∃ e, perform [] w t = .error e) ∧
    (∀ r0 rest w t, ¬ (∀ r ∈ rest, r.length = r0.length) →
      perform (r0 :: rest) w t = .error .valueError) ∧
    (∀ data w t, 1 ≤ data.length → (∀ r ∈ data, r.length = nCrit data) →
      nCrit data ≠ 1 → w.length ≠ nCrit data → w.length ≠ 1 →
      perform data w t = .error .valueError) ∧
    (∀ data w t, 1 ≤ data.length → (∀ r ∈ data, r.length = nCrit data) →
      w.length = nCrit data → t.length < nCrit data →
      perform data w t = .error .indexError) ∧
    (∀ data w t, 1 ≤ data.length → 1 ≤ nCrit data →
      (∀ r ∈ data, r.length = nCrit data) → t.length = nCrit data →
      w.length = nCrit data + 1 → ∃ e, perform data w t = .error e) ∧
    (∀ data w t, 1 ≤ data.length → (∀ r ∈ data, r.length = nCrit data) →
      (w.length = nCrit data ∨ w.length = 1) → nCrit data ≤ t.length →
      ∃ res, perform data w t = .ok res) := by
  refine ⟨?_, ?_, ?_, ?_, ?_, ?_⟩
  · intro w t
    by_cases h : 2 ≤ w.length
    · exact ⟨.valueError, by simp only [perform]; rw [if_pos h]⟩
    · exact ⟨.indexError, by simp only [perform]; rw [if_neg h]⟩
  · intro r0 rest w t h
    simp only [perform]
    rw [if_neg h]
  · intro data w t hm hrect hn1 hwk hw1
    cases data with
    | nil => simp at hm
    | cons r0 rest =>
      have hnc : nCrit (r0 :: rest) = r0.length := rfl
      rw [hnc] at hn1 hwk
      have hr : ∀ r ∈ rest, r.length = r0.length := fun r hr =>
        (hrect r (List.mem_cons_of_mem _ hr)).trans hnc
      have h2 : ¬ (r0.length = w.length ∨ r0.length = 1 ∨ w.length = 1) := by
        push_neg
        exact ⟨fun h => hwk h.symm, hn1, hw1⟩
      simp only [perform]
      rw [if_pos hr, if_neg h2]
  · intro data w t hm hrect hwn ht
    cases data with
    | nil => simp at hm
    | cons r0 rest =>
      have hnc : nCrit (r0 :: rest) = r0.length := rfl
      rw [hnc] at hwn ht
      have hr : ∀ r ∈ rest, r.length = r0.length := fun r hr =>
        (hrect r (List.mem_cons_of_mem _ hr)).trans hnc
      have hb : bWidth r0.length w.length = r0.length := by
        rw [hwn, bWidth_self]
      simp only [perform]
      rw [if_pos hr, if_pos (Or.inl hwn.symm), if_neg (by omega)]
  · intro data w t hm hn hrect ht hw
    cases data with
    | nil => simp at hm
    | cons r0 rest =>
      have hnc : nCrit (r0 :: rest) = r0.length := rfl
      rw [hnc] at hn ht hw
      have hr : ∀ r ∈ rest, r.length = r0.length := fun r hr =>
        (hrect r (List.mem_cons_of_mem _ hr)).trans hnc
      by_cases h1 : r0.length = 1
      · refine ⟨.indexError, ?_⟩
        have hb : bWidth r0.length w.length = w.length := by
          rw [bWidth, if_pos h1]
        simp only [perform]
        rw [if_pos hr, if_pos (Or.inr (Or.inl h1)), if_neg (by omega)]
      · refine ⟨.valueError, ?_⟩
        simp only [perform]
        rw [if_pos hr, if_neg (by push_neg; omega)]
  · intro data w t hm hrect hk ht
    cases data with
    | nil => simp at hm
    | cons r0 rest =>
      have hnc : nCrit (r0 :: rest) = r0.length := rfl
      rw [hnc] at hk ht
      have hr : ∀ r ∈ rest, r.length = r0.length := fun r hr =>
        (hrect r (List.mem_cons_of_mem _ hr)).trans hnc
      have hcond : r0.length = w.length ∨ r0.length = 1 ∨ w.length = 1 := by
        rcases hk with h | h
        · exact Or.inl h.symm
        · exact Or.inr (Or.inr h)
      have hb : bWidth r0.length w.length ≤ t.length := by
        rcases hk with h | h
        · rw [h, bWidth_self]; exact ht
        · rw [h, bWidth_one]; exact ht
      refine ⟨mkResult (matFun (r0 :: rest)) (r0 :: rest).length r0.length
        w.length (fun j => w.getD j 0) (fun j => t.getD j ""), ?_⟩
      simp only [perform]
      rw [if_pos hr, if_pos hcond, if_pos hb]

/-- Witness for the amended C9: a weight vector of length n + 1 = 3 on a
1 by 2 matrix yields an error, and an n = 1 input with weight vector of
length 1 and a cost type succeeds. -/
theorem failure_semantics_amended_witness :
    (∃ e, perform [[1, 2]] [1, 1, 1] ["benefit", "cost"] = .error e) ∧
    ∃ res, perform [[3], [4]] [1] ["cost"] = .ok res :=
  ⟨failure_semantics_amended.2.2.2.2.1 [[1, 2]] [1, 1, 1]
      ["benefit", "cost"] (by decide) (by decide) (by decide) (by decide)
      (by decide),
    failure_semantics_amended.2.2.2.2.2 [[3], [4]] [1] ["cost"]
      (by decide) (by decide) (by decide) (by decide)⟩

/-- Witness for C5: the scorer formula at distances 1 and 2, and at 1 and
minus 1; the single-alternative pipeline on data = [[5]], weights = [2],
types = [benefit]. -/
theorem preference_scorer_formula_and_single_row_witness :
    prefVal (some 1) (some 2) = 2 / (1 + 2) ∧
    prefVal (some 1) (some (-1)) = 0 ∧
    ∃ res, perform [[5]] [2] ["benefit"] = .ok res ∧ res.pref 0 = 0 ∧
      rankedTriples (prefList res) = [(1, 0, 0)] :=
  ⟨(preference_scorer_formula_and_single_row.1 1 2).1 (by norm_num),
    (preference_scorer_formula_and_single_row.1 1 (-1)).2 (by norm_num),
    preference_scorer_formula_and_single_row.2 [[5]] [2] ["benefit"]
      (by decide) rfl⟩

end DSSTopsis
